import Mathlib

/-!
Verification development for `evolve_strings.py` (DNA-evolver): an evolutionary
search for pairs of non-homologous DNA strings.

The Python source is shallowly embedded below.  Strings over the DNA alphabet
become `List Base`; Python floats (used only for fitness ratios and mutation
rates, where all arithmetic is exact) become `ℚ`; fallible functions (Python
`raise`) return `Except Err`.  The ambient random source (`random.choice`,
`random.randint`, `random.random`) is modelled by explicit oracle streams passed
as function arguments: `choice(bases)` becomes a stream of `Base` values,
`randint(0, n-1)` becomes an arbitrary natural draw reduced into range by `% n`,
and `random()` becomes a stream of rationals (actual draws lie in `[0, 1)`).
-/

namespace DNAEvolver

/-- The DNA alphabet: `bases = ["A", "C", "T", "G"]` in the source. -/
inductive Base
  | A
  | C
  | T
  | G
deriving DecidableEq, Repr

/-- bases = ["A", "C", "T", "G"]  (module-level list in the source). -/
def bases : List Base := [Base.A, Base.C, Base.T, Base.G]

/-- A pair of strings: one individual of the population. -/
abbrev StrPair := List Base × List Base

instance : Inhabited Base := ⟨Base.A⟩

/-- Error kinds raised by the source: `ValueError` for unequal lengths in
`score_fitness`, `ZeroDivisionError` for `score/max_score` with zero
denominator, `ValueError` for a mutation rate outside `[0,1]`, and `ValueError`
for a tournament size not below the population size. -/
inductive Err
  | lengthMismatch
  | zeroDivision
  | invalidRate
  | invalidTournament
deriving DecidableEq, Repr

/-- get_substrings: all substrings of length `k`, left to right
(`full_string[i:i+k]` for `i in range(len(full_string)-k+1)`). -/
def get_substrings {α : Type} (full_string : List α) (k : ℕ) : List (List α) :=
  (List.range (full_string.length + 1 - k)).map
    (fun i => (full_string.drop i).take k)

/-- get_sliding_window: `len(substring)//2 - 1 if len(substring) > 1 else 0`. -/
def get_sliding_window {α : Type} (substring : List α) : ℕ :=
  if substring.length > 1 then substring.length / 2 - 1 else 0

/-- score_substrings: count indices `i` of `substrings_1` whose entry occurs in
the window `substrings_2[left_index : right_index]`, where
`left_index = i - sliding_window if i >= sliding_window else 0` and
`right_index = i + sliding_window + 1 if list_length - i > sliding_window else
list_length` (the source's two local variables are inlined; the slice is
`drop` / `take`). -/
def score_substrings {σ : Type} [DecidableEq σ]
    (substrings_1 substrings_2 : List σ) (sliding_window : ℕ) : ℕ :=
  (List.range substrings_1.length).countP (fun i =>
    match substrings_1[i]? with
    | some s =>
        decide (s ∈ (substrings_2.drop
            (if sliding_window ≤ i then i - sliding_window else 0)).take
          ((if substrings_1.length - i > sliding_window then i + sliding_window + 1
            else substrings_1.length) -
           (if sliding_window ≤ i then i - sliding_window else 0)))
    | none => false)

/-- Accumulated `score` of `score_fitness`: the homology scores summed over all
window sizes `k in range(1, length)`. -/
def fitness_score_num (string_1 string_2 : List Base) : ℕ :=
  ((List.range' 1 (string_1.length - 1)).map (fun k =>
    score_substrings (get_substrings string_1 k) (get_substrings string_2 k)
      (get_sliding_window (List.replicate k ())))).sum

/-- Accumulated `max_score` of `score_fitness`: for each `k`, the identity list
`["." * k] * (length - k + 1)` scored against itself.  The dot placeholder of
the source is modelled by `()`. -/
def fitness_max_score (length : ℕ) : ℕ :=
  ((List.range' 1 (length - 1)).map (fun k =>
    score_substrings (List.replicate (length - k + 1) (List.replicate k ()))
      (List.replicate (length - k + 1) (List.replicate k ()))
      (get_sliding_window (List.replicate k ())))).sum

/-- score_fitness: transposition-distance fitness `score / max_score`.  The two
accumulators of the source's single loop are split into the two sums above
(they do not interact).  A zero `max_score` is Python's `ZeroDivisionError`. -/
def score_fitness (string_1 string_2 : List Base) : Except Err ℚ :=
  if string_1.length ≠ string_2.length then Except.error Err.lengthMismatch
  else if fitness_max_score string_1.length = 0 then Except.error Err.zeroDivision
  else Except.ok ((fitness_score_num string_1 string_2 : ℚ) /
    (fitness_max_score string_1.length : ℚ))

/-- Shared loop skeleton of generate_string / mutate_string / remove_terminators:
emit `f a` for each input item, incrementing `count` on each emitted "T", and
when `count` reaches 4 emit the replacement symbol instead and reset the count.
Note the source never resets `count` on a non-"T" symbol. -/
def terminator_fold {α : Type} (repl : Base) (f : α → Base) :
    ℕ → List α → List Base
  | _, [] => []
  | count, a :: rest =>
      let new_base := f a
      let count' := if new_base = Base.T then count + 1 else count
      if count' = 4 then repl :: terminator_fold repl f 0 rest
      else new_base :: terminator_fold repl f count' rest

/-- generate_string: draw `length` random bases (`choice(bases)` modelled by the
stream `draws`), flipping every fourth counted "T" to "C". -/
def generate_string (length : ℕ) (draws : ℕ → Base) : List Base :=
  terminator_fold Base.C id 0 ((List.range length).map draws)

/-- generate_population: `size` pairs of fresh random strings.  `gdraws i c` is
the draw stream of component `c` of pair `i`. -/
def generate_population (string_length size : ℕ) (gdraws : ℕ → ℕ → ℕ → Base) :
    List StrPair :=
  (List.range size).map (fun i =>
    (generate_string string_length (gdraws i 0),
     generate_string string_length (gdraws i 1)))

/-- mutate_base: `choice([b for b in bases if b != base])`; the uniform choice
is modelled by an arbitrary pick reduced into range. -/
def mutate_base (base : Base) (pick : ℕ) : Base :=
  let others := bases.filter (fun b => b ≠ base)
  others.getD (pick % others.length) base

/-- mutate_string: per-base mutation at probability `rate` (the draw
`random()` at position `idx` is `mrand idx`; the `mutate_base` choice is
`mpick idx`), fused with the same fourth-"T"-to-"C" rule as generation. -/
def mutate_string (original_string : List Base) (rate : ℚ)
    (mrand : ℕ → ℚ) (mpick : ℕ → ℕ) : Except Err (List Base) :=
  if rate < 0 ∨ rate > 1 then Except.error Err.invalidRate
  else Except.ok (terminator_fold Base.C
    (fun p : ℕ × Base => if mrand p.1 < rate then mutate_base p.2 (mpick p.1) else p.2)
    0 original_string.enum)

/-- remove_terminators: standalone normalizer flipping every fourth counted "T"
to "A" (same loop skeleton, replacement "A"). -/
def remove_terminators (sequence : List Base) : List Base :=
  terminator_fold Base.A id 0 sequence

/-- cross_strings: pair-level recombination of two parent pairs. -/
def cross_strings (strings_1 strings_2 : StrPair) : List StrPair :=
  [(strings_1.1, strings_2.2), (strings_1.2, strings_2.1)]

/-- Suitor-selection loop of generate_new_strings: for each `i`, a tournament of
`tournament_size` draws (`randint(0, len(population)-1)` modelled as
`tdraws i j % len`), overwriting `best_suitor` on every draw that strictly
beats `fitness[i]`. -/
def select_suitors (population : List StrPair) (fitness : List ℚ)
    (tournament_size : ℕ) (tdraws : ℕ → ℕ → ℕ) : List StrPair :=
  (List.range population.length).map (fun i =>
    ((List.range tournament_size).map (fun j => tdraws i j % population.length)).foldl
      (fun best_suitor suitor =>
        if fitness.getD suitor 0 < fitness.getD i 0
        then population.getD suitor default
        else best_suitor)
      (population.getD i default))

/-- Python-style fallible loop: apply `f` to each element, propagating the
first raised error. -/
def mapE {α β : Type} (f : α → Except Err β) : List α → Except Err (List β)
  | [] => Except.ok []
  | a :: l =>
      match f a with
      | Except.error e => Except.error e
      | Except.ok b =>
          match mapE f l with
          | Except.error e => Except.error e
          | Except.ok bs => Except.ok (b :: bs)

/-- Per-mating-pair mutation loop of generate_new_strings: mutate each string
of each child pair (`tuple(mutate_string(c, mutation_rate) for c in child)`);
`mrands c m` / `mpicks c m` are the mutation streams of component `m` of child
`c`. -/
def mutate_children (mutation_rate : ℚ) (mrands : ℕ → ℕ → ℕ → ℚ)
    (mpicks : ℕ → ℕ → ℕ → ℕ) (children : List StrPair) :
    Except Err (List StrPair) :=
  mapE (fun c =>
      match mutate_string (children.getD c default).1 mutation_rate
          (mrands c 0) (mpicks c 0) with
      | Except.error e => Except.error e
      | Except.ok first =>
          match mutate_string (children.getD c default).2 mutation_rate
              (mrands c 1) (mpicks c 1) with
          | Except.error e => Except.error e
          | Except.ok second => Except.ok (first, second))
    (List.range children.length)

/-- Mating selection list of generate_new_strings: `floor(n/2)` draws of
`randint(0, n-1)` (an arbitrary draw reduced into range). -/
def selection_list (n : ℕ) (sdraws : ℕ → ℕ) : List ℕ :=
  (List.range (n / 2)).map (fun x => sdraws x % n)

/-- Offspring stage of generate_new_strings: for each selected index, cross the
selected pair with its suitor and mutate both children, extending the new
generation by the two resulting pairs. -/
def offspring_stage (population suitors : List StrPair) (mutation_rate : ℚ)
    (sdraws : ℕ → ℕ) (mrands : ℕ → ℕ → ℕ → ℕ → ℚ)
    (mpicks : ℕ → ℕ → ℕ → ℕ → ℕ) : Except Err (List StrPair) :=
  match mapE (fun x =>
      mutate_children mutation_rate (mrands x) (mpicks x)
        (cross_strings
          (population.getD ((selection_list population.length sdraws).getD x 0) default)
          (suitors.getD ((selection_list population.length sdraws).getD x 0) default)))
    (List.range (population.length / 2)) with
  | Except.error e => Except.error e
  | Except.ok new_generation => Except.ok new_generation.flatten

/-- generate_new_strings: fitness landscape, tournament suitors, then the
offspring stage (mating selection, crossover, mutation).  Stream `sdraws x` is
the `x`-th `randint` mating draw; `mrands x c m` / `mpicks x c m` are the
mutation streams of component `m` of child `c` of mating slot `x`. -/
def generate_new_strings (population : List StrPair) (tournament_size : ℕ)
    (mutation_rate : ℚ) (tdraws : ℕ → ℕ → ℕ) (sdraws : ℕ → ℕ)
    (mrands : ℕ → ℕ → ℕ → ℕ → ℚ) (mpicks : ℕ → ℕ → ℕ → ℕ → ℕ) :
    Except Err (List StrPair) :=
  match mapE (fun strings => score_fitness strings.1 strings.2) population with
  | Except.error e => Except.error e
  | Except.ok fitness =>
      offspring_stage population
        (select_suitors population fitness tournament_size tdraws)
        mutation_rate sdraws mrands mpicks

/-- Generational loop of evolve_strings: up to `gens` iterations, stopping early
on an empty population or a tournament size no longer below the population
size; `count` records completed generations.  The per-generation random streams
are indexed by the remaining-generation counter. -/
def evolve_loop (tournament_size : ℕ) (mutation_rate : ℚ)
    (tdraws : ℕ → ℕ → ℕ → ℕ) (sdraws : ℕ → ℕ → ℕ)
    (mrands : ℕ → ℕ → ℕ → ℕ → ℕ → ℚ) (mpicks : ℕ → ℕ → ℕ → ℕ → ℕ → ℕ) :
    ℕ → ℕ → List StrPair → Except Err (List StrPair × ℕ)
  | 0, count, population => Except.ok (population, count)
  | g + 1, count, population =>
      if population.length = 0 then Except.ok (population, count)
      else if tournament_size ≥ population.length then Except.ok (population, count)
      else
        match generate_new_strings population tournament_size mutation_rate
            (tdraws g) (sdraws g) (mrands g) (mpicks g) with
        | Except.error e => Except.error e
        | Except.ok population' =>
            evolve_loop tournament_size mutation_rate tdraws sdraws mrands mpicks
              g (count + 1) population'

/-- Stable insertion step modelling Python's stable ascending sort. -/
def insert_by {α : Type} (le : α → α → Bool) (a : α) : List α → List α
  | [] => [a]
  | b :: l => if le a b then a :: b :: l else b :: insert_by le a l

/-- Stable insertion sort (`list.sort` of the source, ascending by key). -/
def sort_by {α : Type} (le : α → α → Bool) : List α → List α
  | [] => []
  | a :: l => insert_by le a (sort_by le l)

/-- evolve_strings: initialize the population, run the generational loop,
re-score the final population and return (fitness, first, second) triples
sorted ascending by fitness. -/
def evolve_strings (population_size string_length generations tournament_size : ℕ)
    (mutation_rate : ℚ) (gdraws : ℕ → ℕ → ℕ → Base)
    (tdraws : ℕ → ℕ → ℕ → ℕ) (sdraws : ℕ → ℕ → ℕ)
    (mrands : ℕ → ℕ → ℕ → ℕ → ℕ → ℚ) (mpicks : ℕ → ℕ → ℕ → ℕ → ℕ → ℕ) :
    Except Err (List (ℚ × List Base × List Base)) :=
  if tournament_size ≥ population_size then Except.error Err.invalidTournament
  else
    match evolve_loop tournament_size mutation_rate tdraws sdraws mrands mpicks
        generations 0 (generate_population string_length population_size gdraws) with
    | Except.error e => Except.error e
    | Except.ok (population, _count) =>
        match mapE (fun strings => score_fitness strings.1 strings.2) population with
        | Except.error e => Except.error e
        | Except.ok fitness =>
            Except.ok (sort_by (fun a b => decide (a.1 ≤ b.1))
              ((List.range population.length).map (fun i =>
                (fitness.getD i 0, (population.getD i default).1,
                 (population.getD i default).2))))

end DNAEvolver

deriving instance DecidableEq for Except

namespace DNAEvolver

/-! Helper lemmas about the terminator-rule loop. -/

/-- Number of leading "T" symbols of a string. -/
def leadT : List Base → ℕ
  | [] => 0
  | b :: rest => if b = Base.T then leadT rest + 1 else 0

lemma replicate_T_prefix_le_leadT :
    ∀ (n : ℕ) (l : List Base), List.replicate n Base.T <+: l → n ≤ leadT l := by
  intro n
  induction n with
  | zero => intro l _; exact Nat.zero_le _
  | succ n ih =>
    intro l h
    rw [List.replicate_succ] at h
    cases l with
    | nil => simp at h
    | cons b rest =>
      rw [List.cons_prefix_cons] at h
      obtain ⟨hb, hp⟩ := h
      simp only [leadT, ← hb, if_pos rfl]
      exact Nat.succ_le_succ (ih rest hp)

lemma terminator_fold_length {α : Type} (repl : Base) (f : α → Base) :
    ∀ (count : ℕ) (l : List α),
      (terminator_fold repl f count l).length = l.length := by
  intro count l
  induction l generalizing count with
  | nil => rfl
  | cons a rest ih =>
    simp only [terminator_fold]
    split <;> split <;> simp [ih]

lemma terminator_fold_no_run {α : Type} (repl : Base) (hrepl : repl ≠ Base.T)
    (f : α → Base) :
    ∀ (l : List α) (count : ℕ), count ≤ 3 →
      ¬ [Base.T, Base.T, Base.T, Base.T] <:+: terminator_fold repl f count l ∧
        leadT (terminator_fold repl f count l) ≤ 3 - count := by
  intro l
  induction l with
  | nil =>
    intro count _
    constructor
    · simp [terminator_fold]
    · simp [terminator_fold, leadT]
  | cons a rest ih =>
    intro count hc
    simp only [terminator_fold]
    by_cases hT : f a = Base.T
    · rw [if_pos hT]
      by_cases h4 : count + 1 = 4
      · rw [if_pos h4]
        obtain ⟨ih1, ih2⟩ := ih 0 (by omega)
        constructor
        · intro hinf
          rcases List.infix_cons_iff.mp hinf with hpre | hinf2
          · rw [List.cons_prefix_cons] at hpre
            exact hrepl hpre.1.symm
          · exact ih1 hinf2
        · simp [leadT, hrepl]
      · rw [if_neg h4]
        obtain ⟨ih1, ih2⟩ := ih (count + 1) (by omega)
        constructor
        · intro hinf
          rcases List.infix_cons_iff.mp hinf with hpre | hinf2
          · rw [show ([Base.T, Base.T, Base.T, Base.T] : List Base) =
                Base.T :: [Base.T, Base.T, Base.T] from rfl,
              List.cons_prefix_cons] at hpre
            have h3 : (3 : ℕ) ≤ leadT (terminator_fold repl f (count + 1) rest) :=
              replicate_T_prefix_le_leadT 3 _
                (by simpa [List.replicate] using hpre.2)
            omega
          · exact ih1 hinf2
        · simp only [leadT]
          rw [if_pos hT]
          omega
    · rw [if_neg hT]
      have h4 : count ≠ 4 := by omega
      rw [if_neg h4]
      obtain ⟨ih1, ih2⟩ := ih count hc
      constructor
      · intro hinf
        rcases List.infix_cons_iff.mp hinf with hpre | hinf2
        · rw [List.cons_prefix_cons] at hpre
          exact hT hpre.1.symm
        · exact ih1 hinf2
      · simp [leadT, hT]

lemma generate_string_no_run (length : ℕ) (draws : ℕ → Base) :
    ¬ [Base.T, Base.T, Base.T, Base.T] <:+: generate_string length draws :=
  (terminator_fold_no_run Base.C (by decide) id _ 0 (by omega)).1

lemma mutate_string_ok_no_run (s : List Base) (rate : ℚ) (mrand : ℕ → ℚ)
    (mpick : ℕ → ℕ) (out : List Base)
    (h : mutate_string s rate mrand mpick = Except.ok out) :
    ¬ [Base.T, Base.T, Base.T, Base.T] <:+: out := by
  unfold mutate_string at h
  split at h
  · exact absurd h (by simp)
  · injection h with h2
    rw [← h2]
    exact (terminator_fold_no_run Base.C (by decide) _ _ 0 (by omega)).1

lemma generate_string_length (length : ℕ) (draws : ℕ → Base) :
    (generate_string length draws).length = length := by
  unfold generate_string
  rw [terminator_fold_length]
  simp

lemma mutate_string_ok_length (s : List Base) (rate : ℚ) (mrand : ℕ → ℚ)
    (mpick : ℕ → ℕ) (out : List Base)
    (h : mutate_string s rate mrand mpick = Except.ok out) :
    out.length = s.length := by
  unfold mutate_string at h
  split at h
  · exact absurd h (by simp)
  · injection h with h2
    rw [← h2, terminator_fold_length]
    simp

/-! Claims C1, C2, C3. -/

/-- C1: the claim states that on any input free of TTTT-runs, mutation at rate
`0.0` is the identity.  The code violates this: its terminator counter is never
reset on a non-"T" base, so on input TATATATA (which has no TTTT run) the
fourth "T" overall is flipped, yielding TATATACA.  The code contradicts its own
comment "count number of consecutive T's" and the stated terminator-avoidance
intent, so this is a code bug.  This theorem evaluates the code at the failing
input. -/
theorem mutate_rate_zero_alters_constrained_input :
    ¬ ([Base.T, Base.T, Base.T, Base.T] <:+:
        [Base.T, Base.A, Base.T, Base.A, Base.T, Base.A, Base.T, Base.A]) ∧
    mutate_string [Base.T, Base.A, Base.T, Base.A, Base.T, Base.A, Base.T, Base.A]
        0 (fun _ => 0) (fun _ => 0) =
      Except.ok [Base.T, Base.A, Base.T, Base.A, Base.T, Base.A, Base.C, Base.A] ∧
    ([Base.T, Base.A, Base.T, Base.A, Base.T, Base.A, Base.C, Base.A] : List Base) ≠
      [Base.T, Base.A, Base.T, Base.A, Base.T, Base.A, Base.T, Base.A] := by
  exact ⟨by decide, by decide, by decide⟩

/-- C2: the claim states that `remove_terminators` is idempotent.  The code
violates this (same missing counter reset): on TTTTT one application gives
TTTAT but a second application gives TTTAA.  Under the documented consecutive
semantics the normalizer would be idempotent, so this is a code bug.  This
theorem evaluates the code at the failing input. -/
theorem remove_terminators_not_idempotent :
    remove_terminators [Base.T, Base.T, Base.T, Base.T, Base.T] =
      [Base.T, Base.T, Base.T, Base.A, Base.T] ∧
    remove_terminators (remove_terminators [Base.T, Base.T, Base.T, Base.T, Base.T]) =
      [Base.T, Base.T, Base.T, Base.A, Base.A] ∧
    remove_terminators (remove_terminators [Base.T, Base.T, Base.T, Base.T, Base.T]) ≠
      remove_terminators [Base.T, Base.T, Base.T, Base.T, Base.T] := by
  exact ⟨by decide, by decide, by decide⟩

/-- C3: every string produced by `generate_string` (for any length and any
sequence of random draws) and every string returned by `mutate_string` (for any
input, rate and draws) contains no run of four or more consecutive "T"
symbols. -/
theorem generated_and_mutated_strings_have_no_terminator_run :
    (∀ (length : ℕ) (draws : ℕ → Base),
      ¬ [Base.T, Base.T, Base.T, Base.T] <:+: generate_string length draws) ∧
    (∀ (s : List Base) (rate : ℚ) (mrand : ℕ → ℚ) (mpick : ℕ → ℕ)
        (out : List Base), mutate_string s rate mrand mpick = Except.ok out →
      ¬ [Base.T, Base.T, Base.T, Base.T] <:+: out) :=
  ⟨generate_string_no_run, mutate_string_ok_no_run⟩

/-- Witness for C3: the invariant evaluated at a concrete all-"T" generation
and at a concrete rate-zero mutation of TTTTT. -/
theorem generated_and_mutated_strings_have_no_terminator_run_witness :
    ¬ [Base.T, Base.T, Base.T, Base.T] <:+: generate_string 6 (fun _ => Base.T) ∧
    ¬ [Base.T, Base.T, Base.T, Base.T] <:+:
        [Base.T, Base.T, Base.T, Base.C, Base.T] :=
  ⟨generated_and_mutated_strings_have_no_terminator_run.1 6 (fun _ => Base.T),
   generated_and_mutated_strings_have_no_terminator_run.2
     [Base.T, Base.T, Base.T, Base.T, Base.T] 0 (fun _ => 0) (fun _ => 0)
     [Base.T, Base.T, Base.T, Base.C, Base.T] (by decide)⟩

/-! Helper lemmas about the fitness evaluator. -/

lemma mem_take_of_lt {σ : Type} (m : List σ) (j n : ℕ) (hj : j < m.length)
    (hn : j < n) : m[j] ∈ m.take n := by
  have hlen : j < (m.take n).length := by
    rw [List.length_take]
    exact lt_min hn hj
  have heq : (m.take n)[j] = m[j] := List.getElem_take m
  rw [← heq]
  exact List.getElem_mem hlen

lemma mem_window_slice {σ : Type} (l : List σ) (i left right : ℕ)
    (h1 : left ≤ i) (h2 : i < right) (h3 : i < l.length) :
    l[i] ∈ (l.drop left).take (right - left) := by
  obtain ⟨j, rfl⟩ : ∃ j, i = left + j := ⟨i - left, by omega⟩
  have hj : j < (l.drop left).length := by
    rw [List.length_drop]
    omega
  have heq : (l.drop left)[j] = l[left + j] := List.getElem_drop l
  rw [← heq]
  exact mem_take_of_lt _ _ _ hj (by omega)

lemma score_substrings_self {σ : Type} [DecidableEq σ] (l : List σ) (w : ℕ) :
    score_substrings l l w = l.length := by
  unfold score_substrings
  refine Eq.trans (List.countP_eq_length.mpr ?_) (List.length_range _)
  intro i hi
  have hi2 : i < l.length := List.mem_range.mp hi
  simp only [List.getElem?_eq_getElem hi2, decide_eq_true_eq]
  exact mem_window_slice l i _ _ (by split <;> omega) (by split <;> omega) hi2

lemma score_substrings_le_length {σ : Type} [DecidableEq σ]
    (s1 s2 : List σ) (w : ℕ) : score_substrings s1 s2 w ≤ s1.length := by
  unfold score_substrings
  exact le_trans (List.countP_le_length _) (le_of_eq (List.length_range _))

lemma score_substrings_zero_symm {σ : Type} [DecidableEq σ] (s1 s2 : List σ)
    (h : s1.length = s2.length) :
    score_substrings s1 s2 0 = score_substrings s2 s1 0 := by
  unfold score_substrings
  rw [h]
  apply List.countP_congr
  intro i hi
  have hi2 : i < s2.length := List.mem_range.mp hi
  have hi1 : i < s1.length := by omega
  simp only [List.getElem?_eq_getElem hi2, List.getElem?_eq_getElem hi1,
    decide_eq_true_eq]
  have hslice : ∀ (m : List σ) (n : ℕ) (hm : i < m.length) (hn : i < n),
      (m.drop (if 0 ≤ i then i - 0 else 0)).take
        ((if n - i > 0 then i + 0 + 1 else n) -
          (if 0 ≤ i then i - 0 else 0)) = [m[i]] := by
    intro m n hm hn
    rw [if_pos (Nat.zero_le i), if_pos (by omega : n - i > 0)]
    have hrw : i + 0 + 1 - (i - 0) = 1 := by omega
    rw [hrw, Nat.sub_zero, List.drop_eq_getElem_cons hm, List.take_succ_cons,
      List.take_zero]
  rw [hslice s2 s2.length hi2 hi2, hslice s1 s2.length hi1 hi2]
  simp only [List.mem_singleton]
  constructor
  · intro he
    exact he.symm
  · intro he
    exact he.symm

lemma length_get_substrings {α : Type} (s : List α) (k : ℕ) :
    (get_substrings s k).length = s.length + 1 - k := by
  simp [get_substrings]

lemma fitness_score_num_self (s : List Base) :
    fitness_score_num s s = fitness_max_score s.length := by
  unfold fitness_score_num fitness_max_score
  refine congrArg List.sum (List.map_congr_left ?_)
  intro k hk
  have hk2 : 1 ≤ k ∧ k < 1 + (s.length - 1) := List.mem_range'_1.mp hk
  rw [score_substrings_self, score_substrings_self, length_get_substrings,
    List.length_replicate]
  omega

lemma fitness_max_score_pos (L : ℕ) (hL : 2 ≤ L) : 0 < fitness_max_score L := by
  unfold fitness_max_score
  have h1 : (1 : ℕ) ∈ List.range' 1 (L - 1) :=
    List.mem_range'_1.mpr ⟨le_refl 1, by omega⟩
  have hmem : score_substrings (List.replicate (L - 1 + 1) (List.replicate 1 ()))
      (List.replicate (L - 1 + 1) (List.replicate 1 ()))
      (get_sliding_window (List.replicate 1 ())) ∈
      (List.range' 1 (L - 1)).map (fun k =>
        score_substrings (List.replicate (L - k + 1) (List.replicate k ()))
          (List.replicate (L - k + 1) (List.replicate k ()))
          (get_sliding_window (List.replicate k ()))) :=
    List.mem_map_of_mem _ h1
  have hterm : 0 < score_substrings (List.replicate (L - 1 + 1) (List.replicate 1 ()))
      (List.replicate (L - 1 + 1) (List.replicate 1 ()))
      (get_sliding_window (List.replicate 1 ())) := by
    rw [score_substrings_self, List.length_replicate]
    omega
  exact lt_of_lt_of_le hterm (List.single_le_sum (fun x _ => Nat.zero_le x) _ hmem)

lemma fitness_score_num_le (s1 s2 : List Base) :
    fitness_score_num s1 s2 ≤ fitness_max_score s1.length := by
  unfold fitness_score_num fitness_max_score
  apply List.sum_le_sum
  intro k hk
  have hk2 : 1 ≤ k ∧ k < 1 + (s1.length - 1) := List.mem_range'_1.mp hk
  calc score_substrings (get_substrings s1 k) (get_substrings s2 k)
        (get_sliding_window (List.replicate k ()))
      ≤ (get_substrings s1 k).length := score_substrings_le_length _ _ _
    _ = (List.replicate (s1.length - k + 1) (List.replicate k () : List Unit)).length := by
        rw [length_get_substrings, List.length_replicate]
        omega
    _ = score_substrings (List.replicate (s1.length - k + 1) (List.replicate k ()))
          (List.replicate (s1.length - k + 1) (List.replicate k ()))
          (get_sliding_window (List.replicate k ())) :=
        (score_substrings_self _ _).symm

lemma score_fitness_self_eq_one (s : List Base) (h : 2 ≤ s.length) :
    score_fitness s s = Except.ok 1 := by
  unfold score_fitness
  have hpos := fitness_max_score_pos s.length h
  rw [if_neg (by omega), if_neg (by omega), fitness_score_num_self]
  have hne : (fitness_max_score s.length : ℚ) ≠ 0 := by
    exact_mod_cast Nat.pos_iff_ne_zero.mp hpos
  rw [div_self hne]

lemma score_fitness_ok_bounds (s1 s2 : List Base) (q : ℚ)
    (h : score_fitness s1 s2 = Except.ok q) : 0 ≤ q ∧ q ≤ 1 := by
  unfold score_fitness at h
  split at h
  · exact absurd h (by simp)
  split at h
  next hmax =>
    exact absurd h (by simp)
  next hmax =>
    injection h with h2
    have hpos : (0 : ℚ) < (fitness_max_score s1.length : ℚ) := by
      exact_mod_cast Nat.pos_of_ne_zero hmax
    constructor
    · rw [← h2]
      exact div_nonneg (by positivity) (le_of_lt hpos)
    · rw [← h2, div_le_one hpos]
      exact_mod_cast fitness_score_num_le s1 s2

lemma score_fitness_ok_exists (a b : List Base) (h : a.length = b.length)
    (h2 : 2 ≤ a.length) :
    ∃ q, score_fitness a b = Except.ok q ∧ 0 ≤ q ∧ q ≤ 1 := by
  have hmax := fitness_max_score_pos a.length h2
  have hok : score_fitness a b = Except.ok
      ((fitness_score_num a b : ℚ) / (fitness_max_score a.length : ℚ)) := by
    unfold score_fitness
    rw [if_neg (by omega), if_neg (by omega)]
  exact ⟨_, hok, score_fitness_ok_bounds a b _ hok⟩

lemma score_fitness_ne_lengthMismatch (a b : List Base) (h : a.length = b.length) :
    score_fitness a b ≠ Except.error Err.lengthMismatch := by
  unfold score_fitness
  rw [if_neg (by omega)]
  split <;> simp

/-! Claims C4, C5, C6. -/

/-- C4: comparing a sequence of length at least 2 to itself gives fitness
exactly 1: every substring matches itself inside its own window, so the score
accumulator equals the max-score accumulator. -/
theorem score_fitness_self_is_one (s : List Base) (h : 2 ≤ s.length) :
    score_fitness s s = Except.ok 1 :=
  score_fitness_self_eq_one s h

/-- Witness for C4 at the concrete sequence AA. -/
theorem score_fitness_self_is_one_witness :
    2 ≤ ([Base.A, Base.A] : List Base).length ∧
      score_fitness [Base.A, Base.A] [Base.A, Base.A] = Except.ok 1 :=
  ⟨by decide, score_fitness_self_is_one [Base.A, Base.A] (by decide)⟩

unseal Rat.mul Rat.inv in
/-- Counterexample to C5: `score_fitness` is not symmetric.  On AAAAA versus
AAAAC the window size k = 4 has sliding radius 1, and the substring AAAA of the
first string matches inside the second string's window while AAAC does not
match in the first string's: the fitness values are 11/14 and 10/14. -/
theorem score_fitness_not_symmetric :
    score_fitness [Base.A, Base.A, Base.A, Base.A, Base.A]
        [Base.A, Base.A, Base.A, Base.A, Base.C] ≠
      score_fitness [Base.A, Base.A, Base.A, Base.A, Base.C]
        [Base.A, Base.A, Base.A, Base.A, Base.A] := by
  decide

lemma fitness_score_num_symm_small (a b : List Base) (hlen : a.length = b.length)
    (h4 : a.length ≤ 4) : fitness_score_num a b = fitness_score_num b a := by
  unfold fitness_score_num
  rw [hlen]
  refine congrArg List.sum (List.map_congr_left ?_)
  intro k hk
  have hk2 : 1 ≤ k ∧ k < 1 + (b.length - 1) := List.mem_range'_1.mp hk
  have hb4 : b.length ≤ 4 := hlen ▸ h4
  have hw : get_sliding_window (List.replicate k () : List Unit) = 0 := by
    unfold get_sliding_window
    rw [List.length_replicate]
    split <;> omega
  rw [hw]
  apply score_substrings_zero_symm
  rw [length_get_substrings, length_get_substrings, hlen]

/-- C5, amended: `score_fitness` is symmetric for equal-length strings of
length between 2 and 4, where every sliding window has radius 0 and matching is
positionwise; for length 5 and up symmetry can fail (see the
counterexample). -/
theorem score_fitness_symm_small (a b : List Base) (hlen : a.length = b.length)
    (h2 : 2 ≤ a.length) (h4 : a.length ≤ 4) :
    score_fitness a b = score_fitness b a := by
  unfold score_fitness
  rw [fitness_score_num_symm_small a b hlen h4, hlen]

/-- Witness for the amended C5 at the concrete pair (AC, CA). -/
theorem score_fitness_symm_small_witness :
    score_fitness [Base.A, Base.C] [Base.C, Base.A] =
      score_fitness [Base.C, Base.A] [Base.A, Base.C] :=
  score_fitness_symm_small [Base.A, Base.C] [Base.C, Base.A] rfl (by decide)
    (by decide)

/-- C6: for equal-length strings of length at least 2, the max-score
accumulator is strictly positive (so the final division is well-defined) and
the returned fitness lies in `[0, 1]`. -/
theorem fitness_division_safe (a b : List Base) (hlen : a.length = b.length)
    (h2 : 2 ≤ a.length) :
    0 < fitness_max_score a.length ∧
      ∃ q, score_fitness a b = Except.ok q ∧ 0 ≤ q ∧ q ≤ 1 :=
  ⟨fitness_max_score_pos a.length h2, score_fitness_ok_exists a b hlen h2⟩

/-- Witness for C6 at the concrete pair (AC, CA). -/
theorem fitness_division_safe_witness :
    0 < fitness_max_score ([Base.A, Base.C] : List Base).length ∧
      ∃ q, score_fitness [Base.A, Base.C] [Base.C, Base.A] = Except.ok q ∧
        0 ≤ q ∧ q ≤ 1 :=
  fitness_division_safe [Base.A, Base.C] [Base.C, Base.A] rfl (by decide)

/-! Helper lemmas about the fallible loop `mapE`. -/

lemma mapE_ok_forall₂ {α β : Type} (f : α → Except Err β) :
    ∀ (l : List α) (bs : List β), mapE f l = Except.ok bs →
      List.Forall₂ (fun a b => f a = Except.ok b) l bs := by
  intro l
  induction l with
  | nil =>
    intro bs h
    injection h with h2
    rw [← h2]
    exact List.Forall₂.nil
  | cons a rest ih =>
    intro bs h
    unfold mapE at h
    split at h
    · exact absurd h (by simp)
    next b hfa =>
      split at h
      · exact absurd h (by simp)
      next bs2 hrest =>
        injection h with h2
        rw [← h2]
        exact List.Forall₂.cons hfa (ih bs2 hrest)

lemma mapE_ok_length {α β : Type} (f : α → Except Err β) (l : List α)
    (bs : List β) (h : mapE f l = Except.ok bs) : bs.length = l.length :=
  (mapE_ok_forall₂ f l bs h).length_eq.symm

lemma mapE_ok_of_forall {α β : Type} (f : α → Except Err β) :
    ∀ (l : List α), (∀ a ∈ l, ∃ b, f a = Except.ok b) →
      ∃ bs, mapE f l = Except.ok bs := by
  intro l
  induction l with
  | nil =>
    intro _
    exact ⟨[], rfl⟩
  | cons a rest ih =>
    intro hall
    obtain ⟨b, hb⟩ := hall a (by simp)
    obtain ⟨bs, hbs⟩ := ih (fun x hx => hall x (by simp [hx]))
    exact ⟨b :: bs, by simp [mapE, hb, hbs]⟩

lemma forall₂_mem_right {α β : Type} {R : α → β → Prop} :
    ∀ {l : List α} {bs : List β}, List.Forall₂ R l bs →
      ∀ b ∈ bs, ∃ a ∈ l, R a b := by
  intro l bs h
  induction h with
  | nil =>
    intro b hb
    simp at hb
  | cons hR hall ih =>
    intro b hb
    rcases List.mem_cons.mp hb with hb1 | hb2
    · exact ⟨_, by simp, hb1 ▸ hR⟩
    · obtain ⟨a, ha, hRa⟩ := ih b hb2
      exact ⟨a, by simp [ha], hRa⟩

/-! Helper lemmas about the tournament fold. -/

lemma foldl_if_last {α β : Type} (P : β → Prop) [DecidablePred P] (g : β → α) :
    ∀ (l : List β) (init : α),
      l.foldl (fun best j => if P j then g j else best) init =
        ((l.filter (fun j => decide (P j))).getLast?).elim init g := by
  intro l
  induction l with
  | nil =>
    intro init
    rfl
  | cons x rest ih =>
    intro init
    rw [List.foldl_cons, ih, List.filter_cons]
    by_cases hx : P x
    · rw [if_pos hx, if_pos (decide_eq_true hx)]
      cases hfp : rest.filter (fun j => decide (P j)) with
      | nil => simp
      | cons y ys =>
        rw [List.getLast?_cons_cons]
        obtain ⟨z, hz⟩ : ∃ z, (y :: ys).getLast? = some z := by
          cases hcase : (y :: ys).getLast? with
          | none => exact absurd (List.getLast?_eq_none_iff.mp hcase) (by simp)
          | some z => exact ⟨z, rfl⟩
        rw [hz]
        rfl
    · rw [if_neg hx, if_neg (by simp [hx])]

lemma foldl_if_preserve {α β : Type} {Q : α → Prop} (P : β → Prop)
    [DecidablePred P] (g : β → α) :
    ∀ (l : List β) (init : α), Q init → (∀ j ∈ l, Q (g j)) →
      Q (l.foldl (fun best j => if P j then g j else best) init) := by
  intro l
  induction l with
  | nil =>
    intro init hinit _
    exact hinit
  | cons x rest ih =>
    intro init hinit hall
    rw [List.foldl_cons]
    refine ih _ ?_ (fun j hj => hall j (by simp [hj]))
    by_cases hx : P x
    · rw [if_pos hx]
      exact hall x (by simp)
    · rw [if_neg hx]
      exact hinit

/-! Claim C7. -/

/-- Last tournament draw that strictly beats the focal individual, if any. -/
def last_qualifying (fitness : List ℚ) (i : ℕ) (draws : List ℕ) : Option ℕ :=
  (draws.filter (fun j => decide (fitness.getD j 0 < fitness.getD i 0))).getLast?

lemma select_suitors_length (pop : List StrPair) (fitness : List ℚ) (t : ℕ)
    (td : ℕ → ℕ → ℕ) : (select_suitors pop fitness t td).length = pop.length := by
  simp [select_suitors]

lemma select_suitors_getD (pop : List StrPair) (fitness : List ℚ) (t : ℕ)
    (td : ℕ → ℕ → ℕ) (i : ℕ) (hi : i < pop.length) :
    (select_suitors pop fitness t td).getD i default =
      (last_qualifying fitness i
          ((List.range t).map (fun j => td i j % pop.length))).elim
        (pop.getD i default) (fun j => pop.getD j default) := by
  unfold select_suitors
  have hi2 : i < ((List.range pop.length).map (fun i =>
      ((List.range t).map (fun j => td i j % pop.length)).foldl
        (fun best_suitor suitor =>
          if fitness.getD suitor 0 < fitness.getD i 0
          then pop.getD suitor default else best_suitor)
        (pop.getD i default))).length := by
    simpa using hi
  rw [List.getD_eq_getElem _ _ hi2, List.getElem_map, List.getElem_range]
  exact foldl_if_last _ _ _ _

/-- C7: the suitor list has the same length as the population, and the suitor
for individual `i` is `population[j]` for the last tournament draw `j` whose
fitness strictly beats `fitness[i]`, or `population[i]` itself when no draw
qualifies. -/
theorem select_suitors_last_beating_draw (pop : List StrPair) (fitness : List ℚ)
    (t : ℕ) (td : ℕ → ℕ → ℕ) :
    (select_suitors pop fitness t td).length = pop.length ∧
    ∀ i, i < pop.length →
      (select_suitors pop fitness t td).getD i default =
        (last_qualifying fitness i
            ((List.range t).map (fun j => td i j % pop.length))).elim
          (pop.getD i default) (fun j => pop.getD j default) :=
  ⟨select_suitors_length pop fitness t td,
   fun i hi => select_suitors_getD pop fitness t td i hi⟩

/-- Witness for C7: a two-individual population with one tournament draw that
beats the focal individual. -/
theorem select_suitors_last_beating_draw_witness :
    (select_suitors [([Base.A], [Base.A]), ([Base.C], [Base.C])] [1, 0] 1
        (fun _ _ => 1)).getD 0 default =
      (last_qualifying [1, 0] 0
          ((List.range 1).map (fun j => (fun _ _ => 1 : ℕ → ℕ → ℕ) 0 j %
            ([([Base.A], [Base.A]), ([Base.C], [Base.C])] : List StrPair).length))).elim
        (([([Base.A], [Base.A]), ([Base.C], [Base.C])] : List StrPair).getD 0 default)
        (fun j => ([([Base.A], [Base.A]), ([Base.C], [Base.C])] :
          List StrPair).getD j default) :=
  (select_suitors_last_beating_draw [([Base.A], [Base.A]), ([Base.C], [Base.C])]
    [1, 0] 1 (fun _ _ => 1)).2 0 (by decide)

/-! Helper lemmas about the offspring stage. -/

lemma mutate_string_ok_of_rate (s : List Base) (rate : ℚ) (mrand : ℕ → ℚ)
    (mpick : ℕ → ℕ) (hr0 : 0 ≤ rate) (hr1 : rate ≤ 1) :
    ∃ out, mutate_string s rate mrand mpick = Except.ok out := by
  unfold mutate_string
  rw [if_neg (by rw [not_or]; exact ⟨not_lt.mpr hr0, not_lt.mpr hr1⟩)]
  exact ⟨_, rfl⟩

/-- Both strings of a pair have the given length. -/
def pair_lengths (sl : ℕ) (p : StrPair) : Prop :=
  p.1.length = sl ∧ p.2.length = sl

/-- Every string of every pair of the population has the given length. -/
def all_lengths (sl : ℕ) (population : List StrPair) : Prop :=
  ∀ p ∈ population, pair_lengths sl p

lemma getD_mem_of_lt {γ : Type} [Inhabited γ] (l : List γ) (i : ℕ)
    (hi : i < l.length) : l.getD i default ∈ l := by
  rw [List.getD_eq_getElem _ _ hi]
  exact List.getElem_mem hi

lemma select_suitors_all_lengths (sl : ℕ) (pop : List StrPair) (fitness : List ℚ)
    (t : ℕ) (td : ℕ → ℕ → ℕ) (hpop : all_lengths sl pop) (hne : 0 < pop.length) :
    all_lengths sl (select_suitors pop fitness t td) := by
  intro q hq
  unfold select_suitors at hq
  obtain ⟨i, hi, heq⟩ := List.mem_map.mp hq
  have hi2 : i < pop.length := List.mem_range.mp hi
  rw [← heq]
  refine foldl_if_preserve _ _ _ _ (hpop _ (getD_mem_of_lt pop i hi2)) ?_
  intro j hj
  obtain ⟨k, hk, hkeq⟩ := List.mem_map.mp hj
  rw [← hkeq]
  exact hpop _ (getD_mem_of_lt pop _ (Nat.mod_lt _ hne))

lemma mutate_children_ok_length (rate : ℚ) (mrands : ℕ → ℕ → ℕ → ℚ)
    (mpicks : ℕ → ℕ → ℕ → ℕ) (children : List StrPair) (g : List StrPair)
    (h : mutate_children rate mrands mpicks children = Except.ok g) :
    g.length = children.length := by
  unfold mutate_children at h
  have := mapE_ok_length _ _ _ h
  simpa using this

lemma mutate_children_ok (rate : ℚ) (mrands : ℕ → ℕ → ℕ → ℚ)
    (mpicks : ℕ → ℕ → ℕ → ℕ) (children : List StrPair)
    (hr0 : 0 ≤ rate) (hr1 : rate ≤ 1) :
    ∃ g, mutate_children rate mrands mpicks children = Except.ok g := by
  unfold mutate_children
  apply mapE_ok_of_forall
  intro c _
  obtain ⟨a, ha⟩ := mutate_string_ok_of_rate (children.getD c default).1 rate
    (mrands c 0) (mpicks c 0) hr0 hr1
  obtain ⟨b, hb⟩ := mutate_string_ok_of_rate (children.getD c default).2 rate
    (mrands c 1) (mpicks c 1) hr0 hr1
  exact ⟨(a, b), by simp only [ha, hb]⟩

lemma mutate_children_all_lengths (sl : ℕ) (rate : ℚ) (mrands : ℕ → ℕ → ℕ → ℚ)
    (mpicks : ℕ → ℕ → ℕ → ℕ) (children : List StrPair) (g : List StrPair)
    (hch : all_lengths sl children)
    (h : mutate_children rate mrands mpicks children = Except.ok g) :
    all_lengths sl g := by
  intro q hq
  unfold mutate_children at h
  obtain ⟨c, hc, hcq⟩ := forall₂_mem_right (mapE_ok_forall₂ _ _ _ h) q hq
  have hc2 : c < children.length := List.mem_range.mp hc
  split at hcq
  · exact absurd hcq (by simp)
  next first hfirst =>
    split at hcq
    · exact absurd hcq (by simp)
    next second hsecond =>
      injection hcq with hq2
      rw [← hq2]
      have hchild := hch _ (getD_mem_of_lt children c hc2)
      constructor
      · rw [show ((first, second) : StrPair).1 = first from rfl,
          mutate_string_ok_length _ _ _ _ _ hfirst]
        exact hchild.1
      · rw [show ((first, second) : StrPair).2 = second from rfl,
          mutate_string_ok_length _ _ _ _ _ hsecond]
        exact hchild.2

lemma cross_strings_all_lengths (sl : ℕ) (p q : StrPair)
    (hp : pair_lengths sl p) (hq : pair_lengths sl q) :
    all_lengths sl (cross_strings p q) := by
  intro c hc
  unfold cross_strings at hc
  rcases List.mem_cons.mp hc with rfl | hc2
  · exact ⟨hp.1, hq.2⟩
  · rcases List.mem_singleton.mp hc2 with rfl
    exact ⟨hp.2, hq.1⟩

lemma selection_list_getD_lt (n : ℕ) (sd : ℕ → ℕ) (x : ℕ) (hx : x < n / 2)
    (hn : 0 < n) : (selection_list n sd).getD x 0 < n := by
  unfold selection_list
  rw [List.getD_eq_getElem _ _ (by simpa using hx), List.getElem_map,
    List.getElem_range]
  exact Nat.mod_lt _ hn

lemma sum_map_length_two {γ : Type} :
    ∀ (gs : List (List γ)), (∀ g ∈ gs, g.length = 2) →
      (gs.map List.length).sum = 2 * gs.length := by
  intro gs
  induction gs with
  | nil =>
    intro _
    rfl
  | cons g rest ih =>
    intro hall
    simp only [List.map_cons, List.sum_cons, List.length_cons]
    rw [hall g (by simp), ih (fun x hx => hall x (by simp [hx]))]
    ring

lemma offspring_stage_ok_length (pop suitors : List StrPair) (rate : ℚ)
    (sd : ℕ → ℕ) (mr : ℕ → ℕ → ℕ → ℕ → ℚ) (mp : ℕ → ℕ → ℕ → ℕ → ℕ)
    (out : List StrPair)
    (h : offspring_stage pop suitors rate sd mr mp = Except.ok out) :
    out.length = 2 * (pop.length / 2) := by
  unfold offspring_stage at h
  split at h
  · exact absurd h (by simp)
  next groups hoff =>
    injection h with h2
    rw [← h2, List.length_flatten]
    have hlen2 : ∀ g ∈ groups, (g : List StrPair).length = 2 := by
      intro g hg
      obtain ⟨x, _, hbig⟩ := forall₂_mem_right (mapE_ok_forall₂ _ _ _ hoff) g hg
      have hg2 : mutate_children rate (mr x) (mp x)
          (cross_strings
            (pop.getD ((selection_list pop.length sd).getD x 0) default)
            (suitors.getD ((selection_list pop.length sd).getD x 0) default)) =
          Except.ok g := hbig
      rw [mutate_children_ok_length _ _ _ _ _ hg2]
      simp [cross_strings]
    have hglen : groups.length = pop.length / 2 := by
      have := (mapE_ok_forall₂ _ _ _ hoff).length_eq
      simpa using this.symm
    rw [sum_map_length_two groups hlen2, hglen]

lemma offspring_stage_ok (pop suitors : List StrPair) (rate : ℚ)
    (sd : ℕ → ℕ) (mr : ℕ → ℕ → ℕ → ℕ → ℚ) (mp : ℕ → ℕ → ℕ → ℕ → ℕ)
    (hr0 : 0 ≤ rate) (hr1 : rate ≤ 1) :
    ∃ out, offspring_stage pop suitors rate sd mr mp = Except.ok out := by
  have hex : ∀ x ∈ List.range (pop.length / 2), ∃ g,
      mutate_children rate (mr x) (mp x)
        (cross_strings
          (pop.getD ((selection_list pop.length sd).getD x 0) default)
          (suitors.getD ((selection_list pop.length sd).getD x 0) default)) =
      Except.ok g :=
    fun x _ => mutate_children_ok rate (mr x) (mp x) _ hr0 hr1
  obtain ⟨groups, hoff⟩ := mapE_ok_of_forall _ _ hex
  refine ⟨groups.flatten, ?_⟩
  unfold offspring_stage
  rw [hoff]

lemma offspring_stage_all_lengths (sl : ℕ) (pop suitors : List StrPair)
    (rate : ℚ) (sd : ℕ → ℕ) (mr : ℕ → ℕ → ℕ → ℕ → ℚ) (mp : ℕ → ℕ → ℕ → ℕ → ℕ)
    (out : List StrPair) (hpop : all_lengths sl pop)
    (hsuit : all_lengths sl suitors) (hsl : pop.length ≤ suitors.length)
    (h : offspring_stage pop suitors rate sd mr mp = Except.ok out) :
    all_lengths sl out := by
  intro q hq
  unfold offspring_stage at h
  split at h
  · exact absurd h (by simp)
  next groups hoff =>
    injection h with h2
    rw [← h2] at hq
    obtain ⟨g, hg, hqg⟩ := List.mem_flatten.mp hq
    obtain ⟨x, hx, hbig⟩ := forall₂_mem_right (mapE_ok_forall₂ _ _ _ hoff) g hg
    have hx2 : x < pop.length / 2 := List.mem_range.mp hx
    have hne : 0 < pop.length := by omega
    have hi : (selection_list pop.length sd).getD x 0 < pop.length :=
      selection_list_getD_lt pop.length sd x hx2 hne
    have hg2 : mutate_children rate (mr x) (mp x)
        (cross_strings
          (pop.getD ((selection_list pop.length sd).getD x 0) default)
          (suitors.getD ((selection_list pop.length sd).getD x 0) default)) =
        Except.ok g := hbig
    refine mutate_children_all_lengths sl rate (mr x) (mp x) _ g ?_ hg2 q hqg
    exact cross_strings_all_lengths sl _ _
      (hpop _ (getD_mem_of_lt pop _ hi))
      (hsuit _ (getD_mem_of_lt suitors _ (by omega)))

lemma generate_new_strings_ok_length (pop : List StrPair) (t : ℕ) (rate : ℚ)
    (td : ℕ → ℕ → ℕ) (sd : ℕ → ℕ) (mr : ℕ → ℕ → ℕ → ℕ → ℚ)
    (mp : ℕ → ℕ → ℕ → ℕ → ℕ) (out : List StrPair)
    (h : generate_new_strings pop t rate td sd mr mp = Except.ok out) :
    out.length = 2 * (pop.length / 2) := by
  unfold generate_new_strings at h
  split at h
  · exact absurd h (by simp)
  next fitness hfit =>
    exact offspring_stage_ok_length _ _ _ _ _ _ _ h

lemma generate_new_strings_ok_exists (pop : List StrPair) (t : ℕ) (rate : ℚ)
    (td : ℕ → ℕ → ℕ) (sd : ℕ → ℕ) (mr : ℕ → ℕ → ℕ → ℕ → ℚ)
    (mp : ℕ → ℕ → ℕ → ℕ → ℕ)
    (hpairs : ∀ p ∈ pop, (p : StrPair).1.length = p.2.length ∧ 2 ≤ p.1.length)
    (hr0 : 0 ≤ rate) (hr1 : rate ≤ 1) :
    ∃ out, generate_new_strings pop t rate td sd mr mp = Except.ok out := by
  obtain ⟨fitness, hfit⟩ := mapE_ok_of_forall
    (fun strings : StrPair => score_fitness strings.1 strings.2) pop
    (fun p hp => by
      obtain ⟨q, hq, _⟩ := score_fitness_ok_exists p.1 p.2 (hpairs p hp).1
        (hpairs p hp).2
      exact ⟨q, hq⟩)
  obtain ⟨out, hout⟩ := offspring_stage_ok pop
    (select_suitors pop fitness t td) rate sd mr mp hr0 hr1
  refine ⟨out, ?_⟩
  unfold generate_new_strings
  rw [hfit]
  exact hout

lemma generate_new_strings_all_lengths (sl : ℕ) (pop : List StrPair) (t : ℕ)
    (rate : ℚ) (td : ℕ → ℕ → ℕ) (sd : ℕ → ℕ) (mr : ℕ → ℕ → ℕ → ℕ → ℚ)
    (mp : ℕ → ℕ → ℕ → ℕ → ℕ) (out : List StrPair) (hpop : all_lengths sl pop)
    (h : generate_new_strings pop t rate td sd mr mp = Except.ok out) :
    all_lengths sl out := by
  unfold generate_new_strings at h
  split at h
  · exact absurd h (by simp)
  next fitness hfit =>
    by_cases hne : 0 < pop.length
    · refine offspring_stage_all_lengths sl pop _ rate sd mr mp out hpop ?_ ?_ h
      · exact select_suitors_all_lengths sl pop fitness t td hpop hne
      · rw [select_suitors_length]
    · have hlen := offspring_stage_ok_length _ _ _ _ _ _ _ h
      have hout : out = [] := List.length_eq_zero.mp (by omega)
      rw [hout]
      intro p hp
      simp at hp

/-! Claim C8. -/

/-- C8: for every well-formed population (equal-length pairs of length at least
2, so fitness evaluation succeeds) and valid mutation rate, the selection and
offspring stage of generate_new_strings succeeds and returns exactly
`2 * floor(N/2)` pairs: even sizes are preserved, odd sizes shrink by one. -/
theorem produce_offspring_size (pop : List StrPair) (t : ℕ) (rate : ℚ)
    (td : ℕ → ℕ → ℕ) (sd : ℕ → ℕ) (mr : ℕ → ℕ → ℕ → ℕ → ℚ)
    (mp : ℕ → ℕ → ℕ → ℕ → ℕ)
    (hpairs : ∀ p ∈ pop, (p : StrPair).1.length = p.2.length ∧ 2 ≤ p.1.length)
    (hr0 : 0 ≤ rate) (hr1 : rate ≤ 1) :
    ∃ out, generate_new_strings pop t rate td sd mr mp = Except.ok out ∧
      out.length = 2 * (pop.length / 2) := by
  obtain ⟨out, hout⟩ := generate_new_strings_ok_exists pop t rate td sd mr mp
    hpairs hr0 hr1
  exact ⟨out, hout, generate_new_strings_ok_length _ _ _ _ _ _ _ _ hout⟩

/-- Witness for C8: an odd population of three pairs shrinks to two pairs. -/
theorem produce_offspring_size_witness :
    ∃ out, generate_new_strings
        [([Base.A, Base.A], [Base.A, Base.A]), ([Base.A, Base.C], [Base.C, Base.A]),
         ([Base.C, Base.C], [Base.G, Base.G])] 1 0 (fun _ _ => 0) (fun _ => 0)
        (fun _ _ _ _ => 0) (fun _ _ _ _ => 0) = Except.ok out ∧
      out.length = 2 * (([([Base.A, Base.A], [Base.A, Base.A]),
        ([Base.A, Base.C], [Base.C, Base.A]),
        ([Base.C, Base.C], [Base.G, Base.G])] : List StrPair).length / 2) :=
  produce_offspring_size _ 1 0 _ _ _ _ (by decide) (by decide) (by decide)

/-! Helper lemmas about the generational loop. -/

lemma evolve_loop_ok_length_le (t : ℕ) (rate : ℚ) (td : ℕ → ℕ → ℕ → ℕ)
    (sd : ℕ → ℕ → ℕ) (mr : ℕ → ℕ → ℕ → ℕ → ℕ → ℚ) (mp : ℕ → ℕ → ℕ → ℕ → ℕ → ℕ) :
    ∀ (gens count : ℕ) (pop pop' : List StrPair) (count' : ℕ),
      evolve_loop t rate td sd mr mp gens count pop = Except.ok (pop', count') →
      pop'.length ≤ pop.length := by
  intro gens
  induction gens with
  | zero =>
    intro count pop pop' count' h
    injection h with h2
    injection h2 with ha hb
    rw [← ha]
  | succ g ih =>
    intro count pop pop' count' h
    unfold evolve_loop at h
    split at h
    · injection h with h2
      injection h2 with ha hb
      rw [← ha]
    split at h
    · injection h with h2
      injection h2 with ha hb
      rw [← ha]
    split at h
    · exact absurd h (by simp)
    next pop2 hgns =>
      have h1 := ih (count + 1) pop2 pop' count' h
      have h2 := generate_new_strings_ok_length _ _ _ _ _ _ _ _ hgns
      omega

lemma evolve_loop_all_lengths (sl t : ℕ) (rate : ℚ) (td : ℕ → ℕ → ℕ → ℕ)
    (sd : ℕ → ℕ → ℕ) (mr : ℕ → ℕ → ℕ → ℕ → ℕ → ℚ) (mp : ℕ → ℕ → ℕ → ℕ → ℕ → ℕ) :
    ∀ (gens count : ℕ) (pop pop' : List StrPair) (count' : ℕ),
      all_lengths sl pop →
      evolve_loop t rate td sd mr mp gens count pop = Except.ok (pop', count') →
      all_lengths sl pop' := by
  intro gens
  induction gens with
  | zero =>
    intro count pop pop' count' hpop h
    injection h with h2
    injection h2 with ha hb
    rw [← ha]
    exact hpop
  | succ g ih =>
    intro count pop pop' count' hpop h
    unfold evolve_loop at h
    split at h
    · injection h with h2
      injection h2 with ha hb
      rw [← ha]
      exact hpop
    split at h
    · injection h with h2
      injection h2 with ha hb
      rw [← ha]
      exact hpop
    split at h
    · exact absurd h (by simp)
    next pop2 hgns =>
      exact ih (count + 1) pop2 pop' count'
        (generate_new_strings_all_lengths sl _ _ _ _ _ _ _ _ hpop hgns) h

lemma generate_population_length (sl size : ℕ) (gd : ℕ → ℕ → ℕ → Base) :
    (generate_population sl size gd).length = size := by
  simp [generate_population]

lemma generate_population_all_lengths (sl size : ℕ) (gd : ℕ → ℕ → ℕ → Base) :
    all_lengths sl (generate_population sl size gd) := by
  intro p hp
  unfold generate_population at hp
  obtain ⟨i, _, heq⟩ := List.mem_map.mp hp
  rw [← heq]
  exact ⟨generate_string_length _ _, generate_string_length _ _⟩

/-! Helper lemmas about the stable insertion sort. -/

lemma mem_insert_by {γ : Type} (le : γ → γ → Bool) (a b : γ) :
    ∀ (l : List γ), b ∈ insert_by le a l ↔ b = a ∨ b ∈ l := by
  intro l
  induction l with
  | nil => simp [insert_by]
  | cons c rest ih =>
    unfold insert_by
    split
    · simp [List.mem_cons]
    · rw [List.mem_cons, ih, List.mem_cons]
      tauto

lemma length_insert_by {γ : Type} (le : γ → γ → Bool) (a : γ) :
    ∀ (l : List γ), (insert_by le a l).length = l.length + 1 := by
  intro l
  induction l with
  | nil => rfl
  | cons c rest ih =>
    unfold insert_by
    split <;> simp [ih]

lemma length_sort_by {γ : Type} (le : γ → γ → Bool) :
    ∀ (l : List γ), (sort_by le l).length = l.length := by
  intro l
  induction l with
  | nil => rfl
  | cons a rest ih =>
    unfold sort_by
    rw [length_insert_by, ih, List.length_cons]

lemma mem_sort_by {γ : Type} (le : γ → γ → Bool) (b : γ) :
    ∀ (l : List γ), b ∈ sort_by le l ↔ b ∈ l := by
  intro l
  induction l with
  | nil => simp [sort_by]
  | cons a rest ih =>
    unfold sort_by
    rw [mem_insert_by, ih, List.mem_cons]

lemma pairwise_insert_by {γ : Type} (le : γ → γ → Bool)
    (htot : ∀ a b, le a b = true ∨ le b a = true)
    (htrans : ∀ a b c, le a b = true → le b c = true → le a c = true) (a : γ) :
    ∀ (l : List γ), List.Pairwise (fun x y => le x y = true) l →
      List.Pairwise (fun x y => le x y = true) (insert_by le a l) := by
  intro l
  induction l with
  | nil =>
    intro _
    simp [insert_by]
  | cons c rest ih =>
    intro hp
    obtain ⟨hcall, hprest⟩ := List.pairwise_cons.mp hp
    unfold insert_by
    split
    next hle =>
      refine List.Pairwise.cons ?_ hp
      intro b hb
      rcases List.mem_cons.mp hb with rfl | hb2
      · exact hle
      · exact htrans a c b hle (hcall b hb2)
    next hle =>
      have hca : le c a = true := by
        rcases htot a c with hac | hca
        · exact absurd hac hle
        · exact hca
      refine List.Pairwise.cons ?_ (ih hprest)
      intro b hb
      rcases (mem_insert_by le a b rest).mp hb with rfl | hb2
      · exact hca
      · exact hcall b hb2

lemma pairwise_sort_by {γ : Type} (le : γ → γ → Bool)
    (htot : ∀ a b, le a b = true ∨ le b a = true)
    (htrans : ∀ a b c, le a b = true → le b c = true → le a c = true) :
    ∀ (l : List γ), List.Pairwise (fun x y => le x y = true) (sort_by le l) := by
  intro l
  induction l with
  | nil => simp [sort_by]
  | cons a rest ih =>
    unfold sort_by
    exact pairwise_insert_by le htot htrans a _ ih

/-! Claims C9, C10. -/

/-- C9: whenever evolve_strings returns normally with valid parameters
(tournament size below the population size and sequence length at least 2),
the returned (fitness, first, second) triples are sorted ascending by fitness,
number at most the population size, and every fitness lies in `[0, 1]`. -/
theorem evolve_strings_sorted_output (population_size string_length generations
    tournament_size : ℕ) (mutation_rate : ℚ) (gd : ℕ → ℕ → ℕ → Base)
    (td : ℕ → ℕ → ℕ → ℕ) (sd : ℕ → ℕ → ℕ) (mr : ℕ → ℕ → ℕ → ℕ → ℕ → ℚ)
    (mp : ℕ → ℕ → ℕ → ℕ → ℕ → ℕ) (res : List (ℚ × List Base × List Base))
    (ht : tournament_size < population_size) (hsl : 2 ≤ string_length)
    (h : evolve_strings population_size string_length generations
      tournament_size mutation_rate gd td sd mr mp = Except.ok res) :
    List.Sorted (fun a b => a.1 ≤ b.1) res ∧ res.length ≤ population_size ∧
      ∀ x ∈ res, 0 ≤ x.1 ∧ x.1 ≤ 1 := by
  unfold evolve_strings at h
  rw [if_neg (by omega)] at h
  split at h
  · exact absurd h (by simp)
  next population count hloop =>
    split at h
    · exact absurd h (by simp)
    next fitness hfit =>
      injection h with h2
      have hflen : fitness.length = population.length := mapE_ok_length _ _ _ hfit
      have hple : population.length ≤ population_size := by
        have := evolve_loop_ok_length_le _ _ _ _ _ _ generations 0 _ _ _ hloop
        rwa [generate_population_length] at this
      refine ⟨?_, ?_, ?_⟩
      · rw [← h2]
        refine List.Pairwise.imp (fun hd => of_decide_eq_true hd) ?_
        refine pairwise_sort_by _ ?_ ?_ _
        · intro a b
          rcases le_total a.1 b.1 with hab | hba
          · exact Or.inl (decide_eq_true hab)
          · exact Or.inr (decide_eq_true hba)
        · intro a b c hab hbc
          exact decide_eq_true
            (le_trans (of_decide_eq_true hab) (of_decide_eq_true hbc))
      · rw [← h2, length_sort_by, List.length_map, List.length_range]
        exact hple
      · intro x hx
        rw [← h2, mem_sort_by] at hx
        obtain ⟨i, hi, heq⟩ := List.mem_map.mp hx
        have hi2 : i < population.length := List.mem_range.mp hi
        have hmem : fitness.getD i 0 ∈ fitness := by
          rw [List.getD_eq_getElem _ _ (by omega : i < fitness.length)]
          exact List.getElem_mem (by omega)
        obtain ⟨pair, _, hsc⟩ :=
          forall₂_mem_right (mapE_ok_forall₂ _ _ _ hfit) _ hmem
        have hb := score_fitness_ok_bounds _ _ _ hsc
        rw [← heq]
        exact hb

unseal Rat.mul Rat.inv in
/-- Witness for C9: a concrete two-pair run with zero generations. -/
theorem evolve_strings_sorted_output_witness :
    List.Sorted (fun (a b : ℚ × List Base × List Base) => a.1 ≤ b.1)
        [(1, [Base.A, Base.A], [Base.A, Base.A]),
         (1, [Base.A, Base.A], [Base.A, Base.A])] ∧
      ([(1, [Base.A, Base.A], [Base.A, Base.A]),
        (1, [Base.A, Base.A], [Base.A, Base.A])] :
          List (ℚ × List Base × List Base)).length ≤ 2 ∧
      ∀ x ∈ ([(1, [Base.A, Base.A], [Base.A, Base.A]),
        (1, [Base.A, Base.A], [Base.A, Base.A])] :
          List (ℚ × List Base × List Base)), 0 ≤ x.1 ∧ x.1 ≤ 1 :=
  evolve_strings_sorted_output 2 2 0 1 0 (fun _ _ _ => Base.A) (fun _ _ _ => 0)
    (fun _ _ => 0) (fun _ _ _ _ _ => 0) (fun _ _ _ _ _ => 0)
    [(1, [Base.A, Base.A], [Base.A, Base.A]),
     (1, [Base.A, Base.A], [Base.A, Base.A])] (by decide) (by decide) (by decide)

/-- C10: the length invariants of the engine: generation produces strings of
the requested length, mutation preserves length, crossover only re-pairs whole
strings, every initial population pair has the requested lengths, the offspring
step and the generational loop preserve the all-pairs-length invariant, and on
equal-length pairs score_fitness never raises the length-mismatch error — so
that error branch is unreachable during an evolve_strings run. -/
theorem engine_length_invariants :
    (∀ (length : ℕ) (draws : ℕ → Base),
      (generate_string length draws).length = length) ∧
    (∀ (s : List Base) (rate : ℚ) (mrand : ℕ → ℚ) (mpick : ℕ → ℕ)
        (out : List Base), mutate_string s rate mrand mpick = Except.ok out →
      out.length = s.length) ∧
    (∀ p q : StrPair, cross_strings p q = [(p.1, q.2), (p.2, q.1)]) ∧
    (∀ (sl size : ℕ) (gd : ℕ → ℕ → ℕ → Base),
      all_lengths sl (generate_population sl size gd)) ∧
    (∀ (sl : ℕ) (pop : List StrPair) (t : ℕ) (rate : ℚ) (td : ℕ → ℕ → ℕ)
        (sd : ℕ → ℕ) (mr : ℕ → ℕ → ℕ → ℕ → ℚ) (mp : ℕ → ℕ → ℕ → ℕ → ℕ)
        (out : List StrPair), all_lengths sl pop →
      generate_new_strings pop t rate td sd mr mp = Except.ok out →
      all_lengths sl out) ∧
    (∀ (sl t : ℕ) (rate : ℚ) (td : ℕ → ℕ → ℕ → ℕ) (sd : ℕ → ℕ → ℕ)
        (mr : ℕ → ℕ → ℕ → ℕ → ℕ → ℚ) (mp : ℕ → ℕ → ℕ → ℕ → ℕ → ℕ)
        (gens count : ℕ) (pop pop' : List StrPair) (count' : ℕ),
      all_lengths sl pop →
      evolve_loop t rate td sd mr mp gens count pop = Except.ok (pop', count') →
      all_lengths sl pop') ∧
    (∀ (a b : List Base), a.length = b.length →
      score_fitness a b ≠ Except.error Err.lengthMismatch) :=
  ⟨generate_string_length, mutate_string_ok_length,
   fun p q => rfl, generate_population_all_lengths,
   fun sl pop t rate td sd mr mp out h1 h2 =>
     generate_new_strings_all_lengths sl pop t rate td sd mr mp out h1 h2,
   fun sl t rate td sd mr mp gens count pop pop' count' h1 h2 =>
     evolve_loop_all_lengths sl t rate td sd mr mp gens count pop pop' count'
       h1 h2,
   score_fitness_ne_lengthMismatch⟩

/-- Witness for C10: the invariants evaluated on concrete inputs — a length-3
generation, a rate-0 mutation of T, a crossover of two concrete pairs, a
concrete initial population, a zero-generation loop, and a concrete
equal-length fitness call. -/
theorem engine_length_invariants_witness :
    (generate_string 3 (fun _ => Base.T)).length = 3 ∧
    ([Base.T] : List Base).length = ([Base.T] : List Base).length ∧
    cross_strings ([Base.A], [Base.C]) ([Base.G], [Base.T]) =
      [([Base.A], [Base.T]), ([Base.C], [Base.G])] ∧
    all_lengths 2 (generate_population 2 2 (fun _ _ _ => Base.A)) ∧
    all_lengths 1 [([Base.A], [Base.A])] ∧
    score_fitness [Base.A] [Base.A] ≠ Except.error Err.lengthMismatch :=
  ⟨engine_length_invariants.1 3 (fun _ => Base.T),
   engine_length_invariants.2.1 [Base.T] 0 (fun _ => 0) (fun _ => 0) [Base.T]
     (by decide),
   engine_length_invariants.2.2.1 ([Base.A], [Base.C]) ([Base.G], [Base.T]),
   engine_length_invariants.2.2.2.1 2 2 (fun _ _ _ => Base.A),
   engine_length_invariants.2.2.2.2.2.1 1 1 0 (fun _ _ _ => 0) (fun _ _ => 0)
     (fun _ _ _ _ _ => 0) (fun _ _ _ _ _ => 0) 0 0 [([Base.A], [Base.A])]
     [([Base.A], [Base.A])] 0
     (fun p hp => by
       rcases List.mem_singleton.mp hp with rfl
       exact ⟨rfl, rfl⟩)
     rfl,
   engine_length_invariants.2.2.2.2.2.2 [Base.A] [Base.A] rfl⟩

end DNAEvolver
